import Mathlib

/-!
Verification of the cooperative task-scheduling runtime in `src/src/main.cpp`
(repository shenmochao/co_asy, the tree-based generation).

The C++ code is shallowly embedded: straight-line coroutine bodies become pure
Lean functions over explicit state, `std::size_t` arithmetic is `Nat` with the
unsigned 64-bit wrap made explicit, `std::exception_ptr` becomes
`Option Error`, and fallible operations (rethrow paths, union reads with
preconditions) return `Except`/`Option`.  The cooperative interleaving of
sub-tasks is modelled by the order in which sub-task completion events reach
the shared control blocks, which is faithful because the scheduler is strictly
single-threaded (spec §5): a helper's post-await code runs atomically between
two suspension points.

The timer tree itself lives in `rbtree.hpp`, which is not part of `src/`;
definitions that depend on its behaviour are modelled from the spec (marked
`Modelled from the spec:`) — an ordered structure keyed by expiration time
with ties broken by insertion order, O(log n) insert / remove-minimum.
-/

/-- Abstract content of a `std::exception_ptr`: exceptions are opaque tokens,
only identity matters to the runtime (it stores and rethrows them). -/
structure Error where
  code : Nat
deriving DecidableEq, Repr

/-- Wrapping decrement of a 64-bit `std::size_t`: the effect of the C++
pre-decrement `--x` on an unsigned 64-bit value — `0` wraps to `2^64 - 1`,
every other machine value decreases by one. -/
def sizeTDec (c : Nat) : Nat :=
  if c = 0 then 2 ^ 64 - 1 else c - 1

/-- Model of `Uninitialized<T>` (main.cpp:29-58): a raw union holding a `T`
that is constructed by `putValue` and destroyed by `moveValue`.  The ghost
field `slot` records whether the union member is currently alive; the C++
object itself carries no such flag, which is exactly why writing twice or
reading an unwritten/consumed slot is a precondition violation (spec §3). -/
structure Uninitialized (T : Type) where
  slot : Option T
deriving DecidableEq, Repr

namespace Uninitialized

/-- `Uninitialized() noexcept {}` (main.cpp:37): no member is constructed. -/
def init (T : Type) : Uninitialized T :=
  ⟨none⟩

/-- `putValue` (main.cpp:48-57): placement-new of `T` into the raw storage.
Writing while a value is already alive violates the write-at-most-once
invariant (spec §3), modelled as `none`. -/
def putValue (u : Uninitialized T) (v : T) : Option (Uninitialized T) :=
  match u.slot with
  | none => some ⟨some v⟩
  | some _ => none

/-- `moveValue` (main.cpp:42-46): `T ret(std::move(mValue)); mValue.~T();` —
returns the stored value and leaves the union member dead.  Reading before a
write, or a second time, violates the read-at-most-once precondition
(spec §3), modelled as `none`. -/
def moveValue (u : Uninitialized T) : Option (T × Uninitialized T) :=
  match u.slot with
  | some v => some (v, ⟨none⟩)
  | none => none

end Uninitialized

/-- `WhenAllCtlBlock` (main.cpp:405-409): remaining count plus failure slot.
The `mPrevious` continuation field is represented by the `HelperRet` value a
helper hands back (`co_return control.mPrevious` vs `co_return nullptr`). -/
structure WhenAllCtlBlock where
  mCount : Nat
  mException : Option Error
deriving DecidableEq, Repr

/-- The two handles a `ReturnPreviousTask` helper can `co_return`
(main.cpp:445, 450, 453): `control.mPrevious` — transfer control back to the
suspended combinator, forcing its completion — or `nullptr` — yield back into
the interleaving without waking the combinator. -/
inductive HelperRet where
  | toPrevious
  | stay
deriving DecidableEq, Repr

/-- `whenAllHelper` (main.cpp:435-454), with the outcome of `co_await t`
passed in explicitly (the awaited sub-task ran under the scheduler and either
produced a value or threw).  On success: `result.putValue(...)`, then
`--control.mCount` (64-bit size_t), then hand control back iff the count
reached zero.  On failure: store the exception in the control block and hand
control back immediately; neither the result slot nor the count is touched. -/
def whenAllHelper (o : Except Error T) (control : WhenAllCtlBlock)
    (result : Option T) : WhenAllCtlBlock × Option T × HelperRet :=
  match o with
  | .error e => ({ control with mException := some e }, result, .toPrevious)
  | .ok v =>
      let control' := { control with mCount := sizeTDec control.mCount }
      (control', some v,
        if control'.mCount = 0 then .toPrevious else .stay)

/-- Shared state of one `when_all` call over `n` sub-tasks with heterogeneous
result types `τ i`: the stack-scoped control block plus the tuple of
`Uninitialized` result slots allocated in `whenAllImpl` (main.cpp:460-462). -/
structure WhenAllState (n : Nat) (τ : Fin n → Type) where
  control : WhenAllCtlBlock
  slots : (i : Fin n) → Option (τ i)

/-- Initial `when_all` state built by `whenAllImpl` (main.cpp:460-462):
`WhenAllCtlBlock control{sizeof...(Ts)}` — count `n`, null exception — and
every result slot still unconstructed. -/
def whenAllInit (n : Nat) (τ : Fin n → Type) : WhenAllState n τ :=
  ⟨⟨n, none⟩, fun _ => none⟩

/-- Completion of sub-task `i` reaching its `whenAllHelper` frame: the helper
runs its post-await code against the shared state (main.cpp:438-453). -/
def whenAllStepAt {n : Nat} {τ : Fin n → Type}
    (outcomes : (i : Fin n) → Except Error (τ i))
    (st : WhenAllState n τ) (i : Fin n) : WhenAllState n τ × HelperRet :=
  let r := whenAllHelper (outcomes i) st.control (st.slots i)
  ({ control := r.1, slots := Function.update st.slots i r.2.1 }, r.2.2)

/-- Driving one `when_all` call: sub-task completion events arrive in list
order (the order the single-threaded interleaving finishes them); processing
stops the moment a helper co_returns `control.mPrevious`, transferring control
into the suspended combinator (forced completion).  The returned `Bool` is
that completion flag, and the returned list holds the events never processed:
their sub-tasks are abandoned when the helper task array `taskArray` is
destroyed at combinator return (main.cpp:464-466). -/
def whenAllRun {n : Nat} {τ : Fin n → Type}
    (outcomes : (i : Fin n) → Except Error (τ i)) :
    List (Fin n) → WhenAllState n τ → WhenAllState n τ × Bool × List (Fin n)
  | [], st => (st, false, [])
  | i :: rest, st =>
      let p := whenAllStepAt outcomes st i
      match p.2 with
      | .toPrevious => (p.1, true, rest)
      | .stay => whenAllRun outcomes rest p.1

/-- `WhenAllAwaiter::await_resume` (main.cpp:425-429) followed by the result
tuple construction of `whenAllImpl` (main.cpp:468-469): rethrow the captured
failure if one is stored, otherwise move every slot out into the record of
results.  Moving out of a dead slot would be a `moveValue` precondition
violation, modelled as the inner `none`. -/
def whenAllFinish {n : Nat} {τ : Fin n → Type} (st : WhenAllState n τ) :
    Except Error (Option ((i : Fin n) → τ i)) :=
  match st.control.mException with
  | some e => .error e
  | none =>
      if h : ∀ i, (st.slots i).isSome then
        .ok (some (fun i => (st.slots i).get (h i)))
      else
        .ok none

/-- `WhenAnyCtlBlock` (main.cpp:482-488): winner index — initialized to the
sentinel `kNullIndex = std::size_t(-1)` — plus failure slot.  As with join,
`mPrevious` is represented by the helper's `HelperRet`. -/
structure WhenAnyCtlBlock where
  mIndex : Nat
  mException : Option Error
deriving DecidableEq, Repr

/-- `WhenAnyCtlBlock::kNullIndex = std::size_t(-1)` (main.cpp:483). -/
def kNullIndex : Nat :=
  2 ^ 64 - 1

/-- The winner-recording statement `--control.mIndex = index;` of
`whenAnyHelper` (main.cpp:524), exactly as written: first the pre-decrement
mutates `mIndex` (64-bit unsigned wrap), then the assignment overwrites the
same field with `index`. -/
def whenAnyRecordWinner (c : WhenAnyCtlBlock) (index : Nat) : WhenAnyCtlBlock :=
  let c1 := { c with mIndex := sizeTDec c.mIndex }
  { c1 with mIndex := index }

/-- The plain assignment `control.mIndex = index;` the claim compares the
recording statement against. -/
def whenAnyRecordWinnerPlain (c : WhenAnyCtlBlock) (index : Nat) :
    WhenAnyCtlBlock :=
  { c with mIndex := index }

/-- `whenAnyHelper` (main.cpp:515-527), with the outcome of `co_await t`
passed in explicitly.  On success: `result.putValue(...)`, record own index as
winner, hand control back.  On failure: store the exception, hand control
back.  Every path forces completion of the combinator. -/
def whenAnyHelper (o : Except Error T) (control : WhenAnyCtlBlock)
    (result : Option T) (index : Nat) :
    WhenAnyCtlBlock × Option T × HelperRet :=
  match o with
  | .error e => ({ control with mException := some e }, result, .toPrevious)
  | .ok v => (whenAnyRecordWinner control index, some v, .toPrevious)

/-- Shared state of one `when_any` call (main.cpp:533-534): control block plus
the tuple of `Uninitialized` result slots. -/
structure WhenAnyState (n : Nat) (τ : Fin n → Type) where
  control : WhenAnyCtlBlock
  slots : (i : Fin n) → Option (τ i)

/-- Initial `when_any` state (main.cpp:533-534): `WhenAnyCtlBlock control{}` —
sentinel winner index, null exception — and unconstructed slots. -/
def whenAnyInit (n : Nat) (τ : Fin n → Type) : WhenAnyState n τ :=
  ⟨⟨kNullIndex, none⟩, fun _ => none⟩

/-- Completion of sub-task `i` reaching its `whenAnyHelper` frame; the helper
was created with `index = Is = i` (main.cpp:535). -/
def whenAnyStepAt {n : Nat} {τ : Fin n → Type}
    (outcomes : (i : Fin n) → Except Error (τ i))
    (st : WhenAnyState n τ) (i : Fin n) : WhenAnyState n τ × HelperRet :=
  let r := whenAnyHelper (outcomes i) st.control (st.slots i) i.val
  ({ control := r.1, slots := Function.update st.slots i r.2.1 }, r.2.2)

/-- Driving one `when_any` call, analogous to `whenAllRun`: completion events
in interleaving order, stopping at the first helper that transfers control
back to the combinator; unprocessed events are the abandoned sub-tasks. -/
def whenAnyRun {n : Nat} {τ : Fin n → Type}
    (outcomes : (i : Fin n) → Except Error (τ i)) :
    List (Fin n) → WhenAnyState n τ → WhenAnyState n τ × Bool × List (Fin n)
  | [], st => (st, false, [])
  | i :: rest, st =>
      let p := whenAnyStepAt outcomes st i
      match p.2 with
      | .toPrevious => (p.1, true, rest)
      | .stay => whenAnyRun outcomes rest p.1

/-- `WhenAnyAwaiter::await_resume` (main.cpp:504-509) followed by the variant
construction of `whenAnyImpl` (main.cpp:537-545): rethrow the captured failure
if one is stored; otherwise the fold expression constructs, for the single
alternative `Is` equal to `control.mIndex`, the variant from that slot's
`moveValue`, and the result is moved out; trying `mIndex == Is` for each
`Is` in `0..n-1` is the same as testing `mIndex < n` once.  If no alternative
matches the winner index, or the matching slot is dead, the final
`varResult.moveValue()` reads an unconstructed union: precondition violation,
modelled `none`. -/
def whenAnyFinish {n : Nat} {τ : Fin n → Type} (st : WhenAnyState n τ) :
    Except Error (Option ((i : Fin n) × τ i)) :=
  match st.control.mException with
  | some e => .error e
  | none =>
      if h : st.control.mIndex < n then
        .ok ((st.slots ⟨st.control.mIndex, h⟩).map
          (fun v => ⟨⟨st.control.mIndex, h⟩, v⟩))
      else
        .ok none

/-- A timer registration as the scheduler sees it: a `SleepUntilPromise`
(main.cpp:275-287) reduced to its ordering key `mExpireTime` and an identity
for the sleeping task it would resume. -/
structure TimerEntry where
  expire : Nat
  id : Nat
deriving DecidableEq, Repr

/-- Modelled from the spec: the intrusive self-balancing tree of `rbtree.hpp`
is not under `src/`.  Spec §2/§3: an ordered tree keyed by expiration time —
the key comparison is `operator<` on `SleepUntilPromise` (main.cpp:284-287) —
with ties broken by insertion order.  The tree is represented by its in-order
node sequence: insertion places the new entry before the first strictly
greater key (hence after equal keys, preserving insertion order among ties)
and remove-minimum takes the front. -/
def rbInsert (e : TimerEntry) : List TimerEntry → List TimerEntry
  | [] => [e]
  | x :: xs => if e.expire < x.expire then e :: x :: xs else x :: rbInsert e xs

/-- Inserting a batch of entries, one `addTimer` call each, left to right. -/
def rbBuild (entries : List TimerEntry) : List TimerEntry :=
  entries.foldl (fun acc e => rbInsert e acc) []

/-- What `Loop::run` does next, observed at a point where the running chain
has suspended back into the loop (main.cpp:298-318). -/
inductive LoopAction where
  | terminate
  | resumeRoot
  | fireTimer (e : TimerEntry)
  | park (deadline : Nat)
deriving DecidableEq, Repr

/-- One decision of `Loop::run` (main.cpp:298-318): with the timer tree in
state `timers` (in-order sequence, front = minimum), the root-done flag, and
the current clock — an empty tree exits the inner `while` and the outer
`while` either terminates the loop or resumes the root; a nonempty tree fires
the front timer if its deadline has already passed
(`promise.mExpireTime < nowTime`: erase it, resume its task) and otherwise
parks the calling thread until exactly that deadline
(`std::this_thread::sleep_until(promise.mExpireTime)`).  Returns the action
taken and the timer tree it leaves behind. -/
def loopPass (rootDone : Bool) (timers : List TimerEntry) (now : Nat) :
    LoopAction × List TimerEntry :=
  match timers with
  | [] => (if rootDone then .terminate else .resumeRoot, [])
  | e :: rest =>
      if e.expire < now then (.fireTimer e, rest)
      else (.park e.expire, e :: rest)

/-- State of one `when_all(sleep_for d1 .. sleep_for dn)` call while the
scheduler drains its timers: the shared join state (all value types are the
unit type `NonVoidHelper<>` of a void sleep task, main.cpp:60-67) plus the
instant the combinator's continuation was handed control, if it has been. -/
structure JoinSleepState (n : Nat) where
  all : WhenAllState n (fun _ => Unit)
  completedAt : Option Nat

/-- Firing the timer of sleeping helper `i` at instant `now`: the loop
resumes the `SleepUntilPromise` coroutine (main.cpp:311), the sleep task
finishes (`co_await SleepAwaiter` returns, main.cpp:348-359), its
`whenAllHelper` awaiter resumes with the void outcome, and if that helper
co_returns `control.mPrevious` the combinator's continuation runs now. -/
def fireSleep (n : Nat) (st : JoinSleepState n) (now : Nat) (i : Nat) :
    JoinSleepState n :=
  if h : i < n then
    let p := whenAllStepAt (fun _ => Except.ok ()) st.all ⟨i, h⟩
    { all := p.1,
      completedAt :=
        match p.2 with
        | .toPrevious => some now
        | .stay => st.completedAt }
  else st

/-- The inner timer loop of `Loop::run` (main.cpp:302-316) for the
join-of-sleeps scenario.  Each list step folds the loop's two-iteration dance
over one timer: if the front timer already expired it fires at the current
clock; otherwise the thread parks until exactly the deadline — parking
changes nothing but the wall clock, so on the re-check the front timer (still
the same, nothing ran meanwhile) fires at the first instant strictly past its
deadline, `expire + 1` (the comparison at main.cpp:309 is strict `<`). -/
def runJoinTimers {n : Nat} :
    List TimerEntry → Nat → JoinSleepState n → Nat × JoinSleepState n
  | [], now, st => (now, st)
  | e :: rest, now, st =>
      let now' := if e.expire < now then now else e.expire + 1
      runJoinTimers rest now' (fireSleep n st now' e.id)

/-- The timer registrations `when_all(sleep_for d1 .. sleep_for dn)` performs
while launching: helper `i` awaits `sleep_for ds[i]`, which computes deadline
`now() + ds[i]` (main.cpp:354-359, `now()` evaluated at the call — all
launches happen at clock `start` within one uninterrupted running chain).
`i` is the helper's position in the argument list. -/
def sleepEntries (start : Nat) : Nat → List Nat → List TimerEntry
  | _, [] => []
  | i, d :: rest => ⟨start + d, i⟩ :: sleepEntries start (i + 1) rest

/-- The timer tree right after `when_all(sleep_for d1 .. sleep_for dn)` has
launched all its helpers (main.cpp:416-423): one `addTimer` insertion per
helper, in launch order. -/
def sleepTimers (start : Nat) (ds : List Nat) : List TimerEntry :=
  rbBuild (sleepEntries start 0 ds)

/-- A unit of transitively scheduled timer work, as `Loop::run` experiences
it: a pending deadline whose firing resumes a sleeping chain, and that chain
may register further timers (`spawns`) before suspending back into the loop —
e.g. a computation that awaits `sleep_for` again after waking. -/
inductive TimerTask where
  | node (expire : Nat) (spawns : List TimerTask)

/-- The deadline of a pending timer. -/
def TimerTask.expire : TimerTask → Nat
  | .node e _ => e

/-- The timers the woken chain registers before suspending again. -/
def TimerTask.spawns : TimerTask → List TimerTask
  | .node _ s => s

/-- Total number of timer registrations a forest will ever cause: itself and
everything it transitively spawns. -/
def sizeListT : List TimerTask → Nat
  | [] => 0
  | .node _ s :: rest => 1 + sizeListT s + sizeListT rest

/-- Ordered insert of a pending timer into the in-order tree sequence, same
discipline as `rbInsert` (Modelled from the spec: rbtree.hpp is not under
src/). -/
def insertT (t : TimerTask) : List TimerTask → List TimerTask
  | [] => [t]
  | x :: xs => if t.expire < x.expire then t :: x :: xs else x :: insertT t xs

/-- Registering a batch of spawned timers, in program order. -/
def insertAllT (ts : List TimerTask) (acc : List TimerTask) : List TimerTask :=
  ts.foldl (fun acc t => insertT t acc) acc

/-- The inner timer loop of `Loop::run` (main.cpp:302-316) in full
generality: repeatedly fire the earliest pending timer — parking first when
it has not yet expired, exactly as in `runJoinTimers` — where firing a timer
resumes its sleeping chain, which registers the timer's spawned work before
control returns to the loop.  The recursion is paced by a fuel argument, one
unit per firing; the run model supplies fuel equal to the total number of
registrations that can ever occur, which is proved sufficient below (the
fuel-exhausted branch is unreachable there).  Returns the final clock and the
number of timers fired. -/
def drainTimers : Nat → List TimerTask → Nat → Nat → Nat × Nat
  | _, [], now, fired => (now, fired)
  | 0, _ :: _, now, fired => (now, fired)
  | fuel + 1, t :: rest, now, fired =>
      let now' := if t.expire < now then now else t.expire + 1
      drainTimers fuel (insertAllT t.spawns rest) now' (fired + 1)

/-- The root task's `Promise<T>` state (main.cpp:147-195) as the scheduler
leaves it: the exception captured by `unhandled_exception` and the manually
managed result slot written by `return_value`. -/
structure RootPromise (V : Type) where
  mException : Option Error
  mResult : Uninitialized V
deriving DecidableEq, Repr

/-- `Promise<T>::ReturnResult` (main.cpp:176-181): rethrow the stored
exception if there is one, otherwise move the result out of the slot (moving
out of an unwritten slot is a precondition violation: the inner `none`). -/
def ReturnResult (p : RootPromise V) : Except Error (Option V) :=
  match p.mException with
  | some e => .error e
  | none => .ok (p.mResult.moveValue.map (fun r => r.1))

/-- Abstraction of a root computation handed to `Loop::run`: resuming it
registers a forest of transitively spawning timers (one per `co_await` of a
sleep anywhere on the chain), and the chain completes the root — storing a
value via `return_value` or capturing a failure via `unhandled_exception` —
during the resume that fires its last pending timer (or during the initial
resume, if it never sleeps). -/
structure RootCo (V : Type) where
  initialTimers : List TimerTask
  outcome : Except Error V

/-- Everything `Loop::run` leaves behind when it returns: the root promise,
the wall clock at exit, and how many timers were fired on the way. -/
structure RunOut (V : Type) where
  promise : RootPromise V
  finalClock : Nat
  fired : Nat
deriving DecidableEq, Repr

/-- `Loop::run` (main.cpp:298-318) driving a root computation to completion:
resume the root, drain the timer tree, exit once the root is done and the
tree is empty.  `run` is declared `void`, and an exception thrown inside any
resumed coroutine is captured by that coroutine promise's
`unhandled_exception` (main.cpp:163-165, 208-210) instead of escaping
`resume()`; the `Except` layer of the result type is the only channel through
which the run call could deliver a value or propagate a failure to its
caller, and the code never uses it — the outcome stays inside the root's
promise, to be fetched by a separate `ReturnResult` call as `main` does
(main.cpp:583). -/
def LoopRunModel (start : Nat) (root : RootCo V) : Except Error (RunOut V) :=
  let r := drainTimers (sizeListT root.initialTimers)
    (insertAllT root.initialTimers []) start 0
  let promise : RootPromise V :=
    match root.outcome with
    | .ok v => { mException := none, mResult := ⟨some v⟩ }
    | .error e => { mException := some e, mResult := ⟨none⟩ }
  .ok { promise := promise, finalClock := r.1, fired := r.2 }

/-- Claim C8: writing a value into a result slot and then consuming it
returns exactly that value and empties the slot; consuming an unwritten slot,
or consuming a second time after the consume emptied the slot, is a
precondition violation (modelled as `none`). -/
theorem uninitialized_put_then_move (T : Type) (v : T) :
    (Uninitialized.init T).putValue v = some ⟨some v⟩ ∧
    Uninitialized.moveValue (⟨some v⟩ : Uninitialized T) =
      some (v, Uninitialized.init T) ∧
    Uninitialized.moveValue (Uninitialized.init T) = none := by
  refine ⟨rfl, rfl, rfl⟩

/-- Claim C9: one invocation of a join helper performs exactly one mutation of
the shared control block — a successful helper only decrements the remaining
count (the failure slot is untouched), and a failing helper only stores its
exception (the count is untouched, and so is its result slot). -/
theorem whenAllHelper_single_mutation (T : Type) (v : T) (e : Error)
    (c : WhenAllCtlBlock) (s : Option T) :
    ((whenAllHelper (.ok v) c s).1.mException = c.mException ∧
      (whenAllHelper (.ok v) c s).1.mCount = sizeTDec c.mCount ∧
      (whenAllHelper (.ok v) c s).2.1 = some v) ∧
    ((whenAllHelper (.error e) c s).1.mCount = c.mCount ∧
      (whenAllHelper (.error e) c s).1.mException = some e ∧
      (whenAllHelper (.error e) c s).2.1 = s) := by
  refine ⟨⟨rfl, rfl, rfl⟩, ⟨rfl, rfl, rfl⟩⟩

/-- Claim C10: the race helper's winner-recording statement
`--control.mIndex = index;` is observationally equivalent to the plain
assignment `control.mIndex = index;` — for every prior control-block state
(including the `kNullIndex` sentinel) and every helper index, the pre-decrement
is immediately overwritten by the assignment to the same field. -/
theorem whenAnyRecordWinner_eq_plain (c : WhenAnyCtlBlock) (index : Nat) :
    whenAnyRecordWinner c index = whenAnyRecordWinnerPlain c index := by
  rfl

theorem sizeTDec_eq_sub_one (c : Nat) (h0 : 0 < c) :
    sizeTDec c = c - 1 := by
  unfold sizeTDec
  rw [if_neg (by omega)]

theorem whenAllStepAt_ok {n : Nat} {τ : Fin n → Type}
    (outcomes : (i : Fin n) → Except Error (τ i)) (st : WhenAllState n τ)
    (i : Fin n) (v : τ i) (h : outcomes i = .ok v) :
    whenAllStepAt outcomes st i =
      ({ control := { st.control with mCount := sizeTDec st.control.mCount },
         slots := Function.update st.slots i (some v) },
       if sizeTDec st.control.mCount = 0 then .toPrevious else .stay) := by
  simp [whenAllStepAt, whenAllHelper, h]

theorem whenAllStepAt_error {n : Nat} {τ : Fin n → Type}
    (outcomes : (i : Fin n) → Except Error (τ i)) (st : WhenAllState n τ)
    (i : Fin n) (e : Error) (h : outcomes i = .error e) :
    whenAllStepAt outcomes st i =
      ({ control := { st.control with mException := some e },
         slots := st.slots }, .toPrevious) := by
  simp [whenAllStepAt, whenAllHelper, h, Function.update_eq_self]

theorem whenAllRun_all_ok {n : Nat} {τ : Fin n → Type}
    (outcomes : (i : Fin n) → Except Error (τ i)) (values : (i : Fin n) → τ i)
    (hout : ∀ i, outcomes i = .ok (values i)) :
    ∀ (evs : List (Fin n)) (st : WhenAllState n τ),
      evs ≠ [] → evs.Nodup →
      st.control.mCount = evs.length →
      st.control.mException = none →
      (∀ j, st.slots j = if j ∈ evs then none else some (values j)) →
      whenAllRun outcomes evs st =
        ({ control := { mCount := 0, mException := none },
           slots := fun j => some (values j) }, true, []) := by
  intro evs
  induction evs with
  | nil => intro st hne _ _ _ _; exact absurd rfl hne
  | cons i rest ih =>
    intro st _ hnd hcount hexc hslots
    have hstep := whenAllStepAt_ok outcomes st i (values i) (hout i)
    have hc : st.control.mCount = rest.length + 1 := by simpa using hcount
    have hdec : sizeTDec st.control.mCount = rest.length := by
      rw [hc, sizeTDec_eq_sub_one _ (by omega)]
      omega
    rcases rest with _ | ⟨k, rest'⟩
    · have hz : sizeTDec st.control.mCount = 0 := by simpa using hdec
      have hupd : Function.update st.slots i (some (values i)) =
          fun j => some (values j) := by
        funext j
        by_cases hji : j = i
        · subst hji; simp
        · rw [Function.update_noteq hji]
          have hj := hslots j
          simpa [hji] using hj
      simp only [whenAllRun, hstep, hz, if_pos]
      simp [Prod.ext_iff, WhenAllState.mk.injEq, WhenAllCtlBlock.mk.injEq,
        hz, hexc, hupd]
    · have hnz : sizeTDec st.control.mCount ≠ 0 := by
        rw [hdec]; simp
      have hndrest : (k :: rest').Nodup := (List.nodup_cons.mp hnd).2
      have hinotin : i ∉ (k :: rest') := (List.nodup_cons.mp hnd).1
      have hslots' : ∀ j,
          Function.update st.slots i (some (values i)) j =
            if j ∈ (k :: rest') then none else some (values j) := by
        intro j
        by_cases hji : j = i
        · subst hji
          rw [Function.update_same, if_neg hinotin]
        · rw [Function.update_noteq hji]
          have hj := hslots j
          by_cases hmem : j ∈ (k :: rest')
          · rw [if_pos hmem]
            rw [if_pos (by simp [hmem])] at hj
            exact hj
          · rw [if_neg hmem]
            rw [if_neg (by simp [hji, hmem])] at hj
            exact hj
      have hrec := ih
        ({ control := { st.control with mCount := sizeTDec st.control.mCount },
           slots := Function.update st.slots i (some (values i)) })
        (by simp) hndrest (by simpa using hdec) (by simpa using hexc) hslots'
      simp only [whenAllRun, hstep, if_neg hnz]
      exact hrec

/-- Claim C4: when every sub-computation of a join succeeds, each helper
stores its value in its own slot and decrements the shared count exactly once
(final count zero), control is handed back to the combinator only at the last
completion event — every earlier finisher yields back without forcing
completion, so no event is left unprocessed and completion happens exactly
once — and the combinator returns the record of all `n` results indexed in
argument order, independent of the completion order. -/
theorem whenAll_all_succeed {n : Nat} {τ : Fin n → Type}
    (outcomes : (i : Fin n) → Except Error (τ i)) (values : (i : Fin n) → τ i)
    (events : List (Fin n))
    (hout : ∀ i, outcomes i = .ok (values i))
    (hperm : events.Perm (List.finRange n))
    (hn : 0 < n) :
    whenAllRun outcomes events (whenAllInit n τ) =
      ({ control := { mCount := 0, mException := none },
         slots := fun j => some (values j) }, true, []) ∧
    whenAllFinish
        ({ control := { mCount := 0, mException := none },
           slots := fun j => some (values j) } : WhenAllState n τ) =
      .ok (some values) := by
  constructor
  · have hlen : events.length = n := by
      simpa [List.length_finRange] using hperm.length_eq
    apply whenAllRun_all_ok outcomes values hout events (whenAllInit n τ)
    · intro h
      rw [h] at hlen
      simp at hlen
      omega
    · exact (hperm.nodup_iff).mpr (List.nodup_finRange n)
    · simpa [whenAllInit] using hlen.symm
    · rfl
    · intro j
      have hj : j ∈ events := hperm.mem_iff.mpr (List.mem_finRange j)
      simp [whenAllInit, hj]
  · simp [whenAllFinish]

/-- Concrete instance of `whenAll_all_succeed`: two sub-tasks finishing in
reverse argument order. -/
theorem whenAll_all_succeed_witness :
    whenAllRun (fun i : Fin 2 => Except.ok (10 + i.val)) [1, 0]
        (whenAllInit 2 (fun _ => Nat)) =
      ({ control := { mCount := 0, mException := none },
         slots := fun j => some (10 + j.val) }, true, []) ∧
    whenAllFinish
        ({ control := { mCount := 0, mException := none },
           slots := fun j => some (10 + j.val) } :
          WhenAllState 2 (fun _ => Nat)) =
      .ok (some (fun j => 10 + j.val)) :=
  whenAll_all_succeed (fun i : Fin 2 => Except.ok (10 + i.val))
    (fun i => 10 + i.val) [1, 0] (fun _ => rfl) (by decide) (by decide)

theorem whenAllRun_first_failure {n : Nat} {τ : Fin n → Type}
    (outcomes : (i : Fin n) → Except Error (τ i)) (k : Fin n) (e : Error)
    (post : List (Fin n)) (hk : outcomes k = .error e) :
    ∀ (pre : List (Fin n)) (st : WhenAllState n τ),
      (∀ i ∈ pre, ∃ v, outcomes i = .ok v) →
      pre.length < st.control.mCount →
      ∃ st' : WhenAllState n τ,
        whenAllRun outcomes (pre ++ k :: post) st = (st', true, post) ∧
        st'.control.mException = some e ∧
        st'.control.mCount = st.control.mCount - pre.length := by
  intro pre
  induction pre with
  | nil =>
    intro st _ _
    refine ⟨{ control := { st.control with mException := some e },
              slots := st.slots }, ?_, rfl, rfl⟩
    simp only [List.nil_append, whenAllRun,
      whenAllStepAt_error outcomes st k e hk]
  | cons i pre' ih =>
    intro st hpre hcount
    obtain ⟨v, hv⟩ := hpre i (by simp)
    have hstep := whenAllStepAt_ok outcomes st i v hv
    have hlen : pre'.length + 1 < st.control.mCount := by
      simpa using hcount
    have hdec : sizeTDec st.control.mCount = st.control.mCount - 1 :=
      sizeTDec_eq_sub_one _ (by omega)
    have hnz : sizeTDec st.control.mCount ≠ 0 := by omega
    obtain ⟨st', h1, h2, h3⟩ := ih
      ({ control := { st.control with mCount := sizeTDec st.control.mCount },
         slots := Function.update st.slots i (some v) })
      (fun j hj => hpre j (by simp [hj]))
      (by simpa [hdec] using (by omega : pre'.length < st.control.mCount - 1))
    refine ⟨st', ?_, h2, ?_⟩
    · simp only [List.cons_append, whenAllRun, hstep, if_neg hnz]
      exact h1
    · rw [h3]
      simp only [hdec]
      simp only [List.length_cons]
      omega

/-- Claim C3: when sub-computation `k` is the first of a join to fail (every
completion event before it succeeded), the combinator is forced to complete at
that very event — the events after `k` are returned unprocessed, i.e. those
sub-computations are abandoned with the helper-task array at combinator
return — the failing helper does not decrement the remaining count (final
count is `n - pre.length`), and the combinator re-raises exactly the captured
failure `e` to its caller. -/
theorem whenAll_first_failure_completes {n : Nat} {τ : Fin n → Type}
    (outcomes : (i : Fin n) → Except Error (τ i)) (k : Fin n) (e : Error)
    (pre post : List (Fin n))
    (hk : outcomes k = .error e)
    (hpre : ∀ i ∈ pre, ∃ v, outcomes i = .ok v)
    (hlen : pre.length < n) :
    ∃ st' : WhenAllState n τ,
      whenAllRun outcomes (pre ++ k :: post) (whenAllInit n τ) =
        (st', true, post) ∧
      st'.control.mException = some e ∧
      st'.control.mCount = n - pre.length ∧
      whenAllFinish st' = .error e := by
  obtain ⟨st', h1, h2, h3⟩ :=
    whenAllRun_first_failure outcomes k e post hk pre (whenAllInit n τ) hpre
      (by simpa [whenAllInit] using hlen)
  refine ⟨st', h1, h2, by simpa [whenAllInit] using h3, ?_⟩
  simp only [whenAllFinish, h2]

/-- Concrete instance of `whenAll_first_failure_completes`: three sub-tasks,
the second completion event (index 2) fails while index 1 is still pending. -/
theorem whenAll_first_failure_completes_witness :
    ∃ st' : WhenAllState 3 (fun _ => Nat),
      whenAllRun
          (fun i : Fin 3 => if i.val = 2 then .error ⟨5⟩ else .ok i.val)
          ([0] ++ 2 :: [1]) (whenAllInit 3 (fun _ => Nat)) =
        (st', true, [1]) ∧
      st'.control.mException = some ⟨5⟩ ∧
      st'.control.mCount = 3 - 1 ∧
      whenAllFinish st' = .error ⟨5⟩ :=
  whenAll_first_failure_completes
    (fun i : Fin 3 => if i.val = 2 then .error ⟨5⟩ else .ok i.val)
    2 ⟨5⟩ [0] [1] rfl
    (by
      intro i hi
      simp only [List.mem_singleton] at hi
      subst hi
      exact ⟨0, rfl⟩)
    (by decide)

theorem whenAnyStepAt_ok {n : Nat} {τ : Fin n → Type}
    (outcomes : (i : Fin n) → Except Error (τ i)) (st : WhenAnyState n τ)
    (i : Fin n) (v : τ i) (h : outcomes i = .ok v) :
    whenAnyStepAt outcomes st i =
      ({ control := { mIndex := i.val, mException := st.control.mException },
         slots := Function.update st.slots i (some v) }, .toPrevious) := by
  simp [whenAnyStepAt, whenAnyHelper, whenAnyRecordWinner, h]

theorem whenAnyStepAt_error {n : Nat} {τ : Fin n → Type}
    (outcomes : (i : Fin n) → Except Error (τ i)) (st : WhenAnyState n τ)
    (i : Fin n) (e : Error) (h : outcomes i = .error e) :
    whenAnyStepAt outcomes st i =
      ({ control := { st.control with mException := some e },
         slots := st.slots }, .toPrevious) := by
  simp [whenAnyStepAt, whenAnyHelper, h, Function.update_eq_self]

/-- Claim C2: in a race the first sub-computation to finish decides the
outcome alone, forcing completion immediately (the later events stay with the
abandoned sub-tasks).  If it finishes with a value, the combinator completes
with the tagged union carrying that sub-computation's argument-list index and
its value, constructed for that alternative only — every other slot is still
unconstructed; if it fails, the combinator records the failure (the winner
index stays at the sentinel) and re-raises it to its caller. -/
theorem whenAny_first_finisher {n : Nat} {τ : Fin n → Type}
    (outcomes : (i : Fin n) → Except Error (τ i)) (j : Fin n)
    (rest : List (Fin n)) :
    ∃ st' : WhenAnyState n τ,
      whenAnyRun outcomes (j :: rest) (whenAnyInit n τ) = (st', true, rest) ∧
      (∀ i, i ≠ j → st'.slots i = none) ∧
      (∀ v, outcomes j = .ok v →
        st'.control.mIndex = j.val ∧ st'.slots j = some v ∧
        whenAnyFinish st' = .ok (some ⟨j, v⟩)) ∧
      (∀ e, outcomes j = .error e →
        st'.control.mIndex = kNullIndex ∧
        st'.control.mException = some e ∧
        whenAnyFinish st' = .error e) := by
  cases houtj : outcomes j with
  | ok v =>
    refine ⟨{ control := { mIndex := j.val, mException := none },
              slots := Function.update (fun _ => none) j (some v) },
            ?_, ?_, ?_, ?_⟩
    · have hstep := whenAnyStepAt_ok outcomes (whenAnyInit n τ) j v houtj
      simp only [whenAnyRun, hstep]
      simp [whenAnyInit]
    · intro i hij
      simp [Function.update_apply, hij]
    · intro v' hv'
      injection hv' with hveq
      subst hveq
      refine ⟨rfl, by simp, ?_⟩
      simp [whenAnyFinish, Fin.eta]
    · intro e he
      simp at he
  | error e =>
    refine ⟨{ control := { mIndex := kNullIndex, mException := some e },
              slots := fun _ => none }, ?_, ?_, ?_, ?_⟩
    · have hstep := whenAnyStepAt_error outcomes (whenAnyInit n τ) j e houtj
      simp only [whenAnyRun, hstep]
      simp [whenAnyInit]
    · intro i _
      rfl
    · intro v hv
      simp at hv
    · intro e' he'
      injection he' with heq
      subst heq
      exact ⟨rfl, rfl, by simp [whenAnyFinish]⟩

/-- Concrete instance of `whenAny_first_finisher`: two sub-tasks, index 0
finishes first with value 7 while index 1 is still pending. -/
theorem whenAny_first_finisher_witness :
    ∃ st' : WhenAnyState 2 (fun _ => Nat),
      whenAnyRun (fun i : Fin 2 => if i.val = 0 then .ok 7 else .error ⟨3⟩)
          (0 :: [1]) (whenAnyInit 2 (fun _ => Nat)) = (st', true, [1]) ∧
      st'.control.mIndex = 0 ∧ st'.slots 0 = some 7 ∧
      whenAnyFinish st' = .ok (some ⟨0, 7⟩) := by
  obtain ⟨st', h1, _, h3, _⟩ :=
    whenAny_first_finisher
      (fun i : Fin 2 => if i.val = 0 then .ok 7 else .error ⟨3⟩) 0 [1]
  obtain ⟨ha, hb, hc⟩ := h3 7 rfl
  exact ⟨st', h1, ha, hb, hc⟩

theorem rbInsert_perm (e : TimerEntry) :
    ∀ l : List TimerEntry, (rbInsert e l).Perm (e :: l) := by
  intro l
  induction l with
  | nil => exact List.Perm.refl _
  | cons x xs ih =>
    rw [rbInsert]
    by_cases h : e.expire < x.expire
    · rw [if_pos h]
    · rw [if_neg h]
      exact (ih.cons x).trans (List.Perm.swap e x xs)

theorem rbInsert_sorted (e : TimerEntry) :
    ∀ l : List TimerEntry,
      List.Sorted (fun a b : TimerEntry => a.expire ≤ b.expire) l →
      List.Sorted (fun a b : TimerEntry => a.expire ≤ b.expire) (rbInsert e l) := by
  intro l
  induction l with
  | nil => intro _; simp [rbInsert]
  | cons x xs ih =>
    intro hs
    rw [List.sorted_cons] at hs
    obtain ⟨hx, hxs⟩ := hs
    rw [rbInsert]
    by_cases h : e.expire < x.expire
    · rw [if_pos h, List.sorted_cons]
      refine ⟨?_, List.sorted_cons.mpr ⟨hx, hxs⟩⟩
      intro b hb
      rcases List.mem_cons.mp hb with hb | hb
      · subst hb; omega
      · have := hx b hb; omega
    · rw [if_neg h, List.sorted_cons]
      refine ⟨?_, ih hxs⟩
      intro b hb
      rcases List.mem_cons.mp ((rbInsert_perm e xs).mem_iff.mp hb) with hb | hb
      · subst hb; omega
      · exact hx b hb

theorem rbBuild_loop_sorted_perm :
    ∀ entries acc : List TimerEntry,
      List.Sorted (fun a b : TimerEntry => a.expire ≤ b.expire) acc →
      List.Sorted (fun a b : TimerEntry => a.expire ≤ b.expire)
        (entries.foldl (fun acc e => rbInsert e acc) acc) ∧
      (entries.foldl (fun acc e => rbInsert e acc) acc).Perm (acc ++ entries) := by
  intro entries
  induction entries with
  | nil =>
    intro acc hacc
    refine ⟨by simpa using hacc, by simp⟩
  | cons e es ih =>
    intro acc hacc
    rw [List.foldl_cons]
    obtain ⟨h1, h2⟩ := ih (rbInsert e acc) (rbInsert_sorted e acc hacc)
    refine ⟨h1, h2.trans ?_⟩
    refine ((rbInsert_perm e acc).append_right es).trans ?_
    simpa using (@List.perm_middle _ e acc es).symm

/-- Claim C7: for every batch of timer entries, in any insertion order,
building the timer structure and repeatedly removing the minimum (= reading
the in-order sequence front to back) yields exactly the inserted entries, in
non-decreasing expiration-time order. -/
theorem rbTimer_min_order (entries : List TimerEntry) :
    List.Sorted (fun a b : TimerEntry => a.expire ≤ b.expire)
      (rbBuild entries) ∧
    (rbBuild entries).Perm entries := by
  obtain ⟨h1, h2⟩ := rbBuild_loop_sorted_perm entries [] (by simp)
  exact ⟨h1, by simpa using h2⟩

/-- Claim C5: at every suspension of the running chain back into the
scheduler loop, (1) the loop terminates exactly when the root is done and the
timer structure is empty; otherwise, for a nonempty structure whose front
entry `e` is the earliest deadline (no later entry is smaller), (2) if `e` has
already expired the loop removes it and resumes its task without blocking —
in particular a `sleep_until` of a past time point fires on this very pass —
and (3) if `e` has not expired the thread parks until exactly `e`'s deadline,
leaving the structure unchanged for the re-check. -/
theorem loopPass_spec (rootDone : Bool) (timers : List TimerEntry) (now : Nat)
    (hsorted : List.Sorted (fun a b : TimerEntry => a.expire ≤ b.expire)
      timers) :
    ((loopPass rootDone timers now).1 = LoopAction.terminate ↔
      (rootDone = true ∧ timers = [])) ∧
    (∀ e rest, timers = e :: rest →
      (∀ x ∈ rest, e.expire ≤ x.expire) ∧
      (e.expire < now →
        loopPass rootDone timers now = (.fireTimer e, rest)) ∧
      (¬ e.expire < now →
        loopPass rootDone timers now = (.park e.expire, e :: rest))) := by
  constructor
  · cases timers with
    | nil => cases rootDone <;> simp [loopPass]
    | cons e rest => by_cases h : e.expire < now <;> simp [loopPass, h]
  · intro e rest ht
    subst ht
    rw [List.sorted_cons] at hsorted
    refine ⟨fun x hx => hsorted.1 x hx, ?_, ?_⟩
    · intro h; simp [loopPass, h]
    · intro h; simp [loopPass, h]

/-- Concrete instance of `loopPass_spec`: a sorted two-timer structure at a
clock where the front timer (deadline 3) has expired. -/
theorem loopPass_spec_witness :
    ((loopPass false [⟨3, 0⟩, ⟨5, 1⟩] 4).1 = LoopAction.terminate ↔
      (false = true ∧ ([⟨3, 0⟩, ⟨5, 1⟩] : List TimerEntry) = [])) ∧
    (∀ e rest, ([⟨3, 0⟩, ⟨5, 1⟩] : List TimerEntry) = e :: rest →
      (∀ x ∈ rest, e.expire ≤ x.expire) ∧
      (e.expire < 4 →
        loopPass false [⟨3, 0⟩, ⟨5, 1⟩] 4 = (.fireTimer e, rest)) ∧
      (¬ e.expire < 4 →
        loopPass false [⟨3, 0⟩, ⟨5, 1⟩] 4 = (.park e.expire, e :: rest))) :=
  loopPass_spec false [⟨3, 0⟩, ⟨5, 1⟩] 4 (by decide)

theorem sleepEntries_length (start : Nat) :
    ∀ (i : Nat) (ds : List Nat), (sleepEntries start i ds).length = ds.length := by
  intro i ds
  induction ds generalizing i with
  | nil => rfl
  | cons d rest ih => simp [sleepEntries, ih]

theorem sleepEntries_mem_id (start : Nat) :
    ∀ (i : Nat) (ds : List Nat), ∀ e ∈ sleepEntries start i ds,
      i ≤ e.id ∧ e.id < i + ds.length := by
  intro i ds
  induction ds generalizing i with
  | nil => intro e he; simp [sleepEntries] at he
  | cons d rest ih =>
    intro e he
    rw [sleepEntries] at he
    rcases List.mem_cons.mp he with he | he
    · subst he
      refine ⟨Nat.le_refl i, ?_⟩
      show i < i + (rest.length + 1)
      omega
    · obtain ⟨ha, hb⟩ := ih (i + 1) e he
      refine ⟨by omega, ?_⟩
      show e.id < i + (rest.length + 1)
      omega

theorem sleepEntries_covers_expire (start : Nat) :
    ∀ (i : Nat) (ds : List Nat), ∀ d ∈ ds,
      ∃ e ∈ sleepEntries start i ds, e.expire = start + d := by
  intro i ds
  induction ds generalizing i with
  | nil => intro d hd; simp at hd
  | cons d0 rest ih =>
    intro d hd
    rcases List.mem_cons.mp hd with hd | hd
    · subst hd
      exact ⟨⟨start + d, i⟩, by rw [sleepEntries]; simp, rfl⟩
    · obtain ⟨e, he, hexp⟩ := ih (i + 1) d hd
      exact ⟨e, by rw [sleepEntries]; simp [he], hexp⟩

theorem sleepEntries_covers_id (start : Nat) :
    ∀ (i : Nat) (ds : List Nat), ∀ j, j < ds.length →
      ∃ e ∈ sleepEntries start i ds, e.id = i + j := by
  intro i ds
  induction ds generalizing i with
  | nil => intro j hj; simp at hj
  | cons d rest ih =>
    intro j hj
    cases j with
    | zero => exact ⟨⟨start + d, i⟩, by rw [sleepEntries]; simp, rfl⟩
    | succ j' =>
      obtain ⟨e, he, hid⟩ := ih (i + 1) j' (by
        simp only [List.length_cons] at hj
        omega)
      exact ⟨e, by rw [sleepEntries]; simp [he], by omega⟩

theorem foldrMax_mem :
    ∀ ds : List Nat, ds.foldr max 0 = 0 ∨ ds.foldr max 0 ∈ ds := by
  intro ds
  induction ds with
  | nil => left; rfl
  | cons d rest ih =>
    simp only [List.foldr_cons]
    rcases max_choice d (rest.foldr max 0) with h | h
    · rw [h]; right; simp
    · rw [h]
      rcases ih with h2 | h2
      · left; exact h2
      · right; simp [h2]

theorem runJoinTimers_spec {n : Nat} :
    ∀ (timers : List TimerEntry) (now : Nat) (st : JoinSleepState n),
      timers ≠ [] →
      st.all.control.mCount = timers.length →
      st.all.control.mException = none →
      (∀ e ∈ timers, e.id < n) →
      (runJoinTimers timers now st).2.all.control.mCount = 0 ∧
      (runJoinTimers timers now st).2.all.control.mException = none ∧
      (runJoinTimers timers now st).2.completedAt =
        some (runJoinTimers timers now st).1 ∧
      now ≤ (runJoinTimers timers now st).1 ∧
      (∀ e ∈ timers, e.expire < (runJoinTimers timers now st).1) ∧
      (∀ i : Fin n,
        ((∃ e ∈ timers, e.id = i.val) ∨ st.all.slots i = some ()) →
        (runJoinTimers timers now st).2.all.slots i = some ()) := by
  intro timers
  induction timers with
  | nil => intro now st h; exact absurd rfl h
  | cons e rest ih =>
    intro now st _ hcount hexc hid
    have hidn : e.id < n := hid e (by simp)
    have hstep := whenAllStepAt_ok (fun _ : Fin n => Except.ok ()) st.all
      ⟨e.id, hidn⟩ () rfl
    have hcnt1 : st.all.control.mCount = rest.length + 1 := by simpa using hcount
    have hdec : sizeTDec st.all.control.mCount = rest.length := by
      rw [hcnt1, sizeTDec_eq_sub_one _ (by omega)]
      omega
    set now' := if e.expire < now then now else e.expire + 1 with hnowdef
    have hnow1 : now ≤ now' := by
      rw [hnowdef]
      split <;> omega
    have hnow2 : e.expire < now' := by
      rw [hnowdef]
      split <;> omega
    have hrununf : runJoinTimers (e :: rest) now st =
        runJoinTimers rest now' (fireSleep n st now' e.id) := rfl
    rcases rest with _ | ⟨k, rest'⟩
    · have hz : sizeTDec st.all.control.mCount = 0 := by simpa using hdec
      have hfire0 : fireSleep n st now' e.id =
          { all := { control := { mCount := 0,
                                  mException := st.all.control.mException },
                     slots := Function.update st.all.slots ⟨e.id, hidn⟩
                       (some ()) },
            completedAt := some now' } := by
        rw [fireSleep, dif_pos hidn]
        simp only [hstep, hz]
        simp
      rw [hrununf, hfire0]
      refine ⟨rfl, hexc, rfl, hnow1, ?_, ?_⟩
      · intro x hx
        rcases List.mem_cons.mp hx with hx | hx
        · subst hx; exact hnow2
        · simp at hx
      · intro i hi
        show Function.update st.all.slots ⟨e.id, hidn⟩ (some ()) i = some ()
        by_cases hii : i = ⟨e.id, hidn⟩
        · rw [hii]
          simp
        · rcases hi with hi | hi
          · obtain ⟨x, hx, hxid⟩ := hi
            rcases List.mem_cons.mp hx with hx | hx
            · subst hx
              exact absurd (Fin.ext hxid.symm) hii
            · simp at hx
          · simpa [Function.update_apply, hii] using hi
    · have hnz : sizeTDec st.all.control.mCount ≠ 0 := by
        rw [hdec]; simp
      have hfire1 : fireSleep n st now' e.id =
          { all := { control := { mCount := sizeTDec st.all.control.mCount,
                                  mException := st.all.control.mException },
                     slots := Function.update st.all.slots ⟨e.id, hidn⟩
                       (some ()) },
            completedAt := st.completedAt } := by
        rw [fireSleep, dif_pos hidn]
        simp only [hstep]
        simp [hnz]
      obtain ⟨ih1, ih2, ih3, ih4, ih5, ih6⟩ := ih now'
        (fireSleep n st now' e.id)
        (by simp)
        (by rw [hfire1]; simpa using hdec)
        (by rw [hfire1]; simpa using hexc)
        (fun x hx => hid x (by simp [hx]))
      rw [hrununf]
      refine ⟨ih1, ih2, ih3, le_trans hnow1 ih4, ?_, ?_⟩
      · intro x hx
        rcases List.mem_cons.mp hx with hx | hx
        · subst hx
          exact lt_of_lt_of_le hnow2 ih4
        · exact ih5 x hx
      · intro i hi
        apply ih6
        rcases hi with hi | hi
        · obtain ⟨x, hx, hxid⟩ := hi
          rcases List.mem_cons.mp hx with hx | hx
          · subst hx
            right
            rw [hfire1]
            have hieq : i = ⟨x.id, hidn⟩ := Fin.ext hxid.symm
            rw [hieq]
            simp
          · left
            exact ⟨x, hx, hxid⟩
        · right
          rw [hfire1]
          by_cases hii : i = ⟨e.id, hidn⟩
          · rw [hii]; simp
          · simpa [Function.update_apply, hii] using hi

/-- Claim C6: for n ≥ 1 sleep durations, `when_all(sleep_for d1 .. sleep_for
dn)` hands control to its continuation exactly when the scheduler fires the
last pending sleep timer, which is no earlier than the start time plus every
dᵢ — in particular no earlier than start + max(d1..dn) — and the combinator
then returns the record of n unit values (`NonVoidHelper<>` per void sleep
task). -/
theorem join_sleep_completes_after_max (start : Nat) (ds : List Nat)
    (hne : ds ≠ []) (tfin : Nat) (st' : JoinSleepState ds.length)
    (hrun : runJoinTimers (sleepTimers start ds) start
        { all := whenAllInit ds.length (fun _ => Unit), completedAt := none } =
      (tfin, st')) :
    st'.completedAt = some tfin ∧
    (∀ d ∈ ds, start + d < tfin) ∧
    start + ds.foldr max 0 ≤ tfin ∧
    whenAllFinish st'.all = .ok (some (fun _ => ())) := by
  have hperm : (sleepTimers start ds).Perm (sleepEntries start 0 ds) := by
    simpa [sleepTimers, rbBuild] using
      (rbBuild_loop_sorted_perm (sleepEntries start 0 ds) [] (by simp)).2
  have hlen : (sleepTimers start ds).length = ds.length := by
    rw [hperm.length_eq, sleepEntries_length]
  have hne' : sleepTimers start ds ≠ [] := by
    intro h
    rw [h] at hlen
    exact hne (List.length_eq_zero.mp hlen.symm)
  have hid : ∀ e ∈ sleepTimers start ds, e.id < ds.length := by
    intro e he
    have h2 := sleepEntries_mem_id start 0 ds e (hperm.mem_iff.mp he)
    omega
  obtain ⟨h1, h2, h3, h4, h5, h6⟩ := runJoinTimers_spec (sleepTimers start ds)
    start ⟨whenAllInit ds.length (fun _ => Unit), none⟩ hne'
    (by simpa [whenAllInit] using hlen.symm) (by simp [whenAllInit]) hid
  rw [hrun] at h1 h2 h3 h4 h5 h6
  have hds : ∀ d ∈ ds, start + d < tfin := by
    intro d hd
    obtain ⟨e, he, hexp⟩ := sleepEntries_covers_expire start 0 ds d hd
    have := h5 e (hperm.mem_iff.mpr he)
    omega
  refine ⟨h3, hds, ?_, ?_⟩
  · rcases foldrMax_mem ds with hm | hm
    · rw [hm]; omega
    · have := hds _ hm; omega
  · have hall : ∀ i : Fin ds.length, st'.all.slots i = some () := by
      intro i
      obtain ⟨e, he, hid2⟩ := sleepEntries_covers_id start 0 ds i.val i.isLt
      exact h6 i (Or.inl ⟨e, hperm.mem_iff.mpr he, by omega⟩)
    have hsome : ∀ i : Fin ds.length, (st'.all.slots i).isSome := by
      intro i; rw [hall i]; rfl
    have h2' : st'.all.control.mException = none := h2
    simp only [whenAllFinish, h2']
    rw [dif_pos hsome]

/-- Concrete instance of `join_sleep_completes_after_max`: two sleeps of 2 and
1 ticks started at clock 5; the join completes at clock 8, after 5 + 2. -/
theorem join_sleep_completes_after_max_witness :
    (runJoinTimers (sleepTimers 5 [2, 1]) 5
        { all := whenAllInit 2 (fun _ => Unit), completedAt := none }).2.completedAt =
      some (runJoinTimers (sleepTimers 5 [2, 1]) 5
        { all := whenAllInit 2 (fun _ => Unit), completedAt := none }).1 ∧
    (∀ d ∈ [2, 1], 5 + d <
      (runJoinTimers (sleepTimers 5 [2, 1]) 5
        { all := whenAllInit 2 (fun _ => Unit), completedAt := none }).1) ∧
    5 + [2, 1].foldr max 0 ≤
      (runJoinTimers (sleepTimers 5 [2, 1]) 5
        { all := whenAllInit 2 (fun _ => Unit), completedAt := none }).1 ∧
    whenAllFinish (runJoinTimers (sleepTimers 5 [2, 1]) 5
        { all := whenAllInit 2 (fun _ => Unit),
          completedAt := none }).2.all =
      .ok (some (fun _ => ())) :=
  join_sleep_completes_after_max 5 [2, 1] (by simp)
    (runJoinTimers (sleepTimers 5 [2, 1]) 5
      { all := whenAllInit 2 (fun _ => Unit), completedAt := none }).1
    (runJoinTimers (sleepTimers 5 [2, 1]) 5
      { all := whenAllInit 2 (fun _ => Unit), completedAt := none }).2
    rfl

theorem sizeListT_cons (t : TimerTask) (l : List TimerTask) :
    sizeListT (t :: l) = 1 + sizeListT t.spawns + sizeListT l := by
  cases t
  simp [sizeListT, TimerTask.spawns]

theorem sizeListT_insertT (t : TimerTask) :
    ∀ l : List TimerTask,
      sizeListT (insertT t l) = 1 + sizeListT t.spawns + sizeListT l := by
  intro l
  induction l with
  | nil => rw [insertT, sizeListT_cons]
  | cons x xs ih =>
    rw [insertT]
    by_cases h : t.expire < x.expire
    · rw [if_pos h, sizeListT_cons]
    · rw [if_neg h, sizeListT_cons, ih, sizeListT_cons]
      omega

theorem sizeListT_insertAllT :
    ∀ ts acc : List TimerTask,
      sizeListT (insertAllT ts acc) = sizeListT ts + sizeListT acc := by
  intro ts
  induction ts with
  | nil =>
    intro acc
    simp [insertAllT, sizeListT]
  | cons t ts' ih =>
    intro acc
    have hstep : insertAllT (t :: ts') acc = insertAllT ts' (insertT t acc) :=
      rfl
    rw [hstep, ih, sizeListT_insertT, sizeListT_cons]
    omega

theorem drainTimers_spec :
    ∀ (fuel : Nat) (ts : List TimerTask) (now fired : Nat),
      sizeListT ts ≤ fuel →
      (drainTimers fuel ts now fired).2 = fired + sizeListT ts := by
  intro fuel
  induction fuel with
  | zero =>
    intro ts now fired h
    cases ts with
    | nil => simp [drainTimers, sizeListT]
    | cons t rest =>
      rw [sizeListT_cons] at h
      omega
  | succ fuel ih =>
    intro ts now fired h
    cases ts with
    | nil => simp [drainTimers, sizeListT]
    | cons t rest =>
      have hsz : sizeListT (insertAllT t.spawns rest) ≤ fuel := by
        rw [sizeListT_insertAllT]
        rw [sizeListT_cons] at h
        omega
      show (drainTimers fuel (insertAllT t.spawns rest)
        (if t.expire < now then now else t.expire + 1) (fired + 1)).2 =
        fired + sizeListT (t :: rest)
      rw [ih _ _ _ hsz, sizeListT_insertAllT, sizeListT_cons]
      omega

/-- Claim C1 (amended): `Loop::run` drives the root until it is done and the
timer tree is empty — every transitively scheduled timer has fired when run
returns — but run itself returns void: it neither returns the root's value
nor lets the root's failure propagate out of the call (the embedded run's
`Except` channel always carries `.ok`).  The outcome sits in the root's
promise — value slot written on success, exception captured by
`unhandled_exception` on failure — and the caller retrieves it through the
separate `ReturnResult` call, which returns the value or re-raises the
failure, exactly as `main` does (main.cpp:583). -/
theorem loopRun_drains_and_stores (V : Type) (start : Nat) (root : RootCo V) :
    ∃ out : RunOut V,
      LoopRunModel start root = .ok out ∧
      out.fired = sizeListT root.initialTimers ∧
      out.promise = (match root.outcome with
        | .ok v => { mException := none, mResult := ⟨some v⟩ }
        | .error e => { mException := some e, mResult := ⟨none⟩ }) ∧
      ReturnResult out.promise = (match root.outcome with
        | .ok v => .ok (some v)
        | .error e => .error e) := by
  obtain ⟨ts, oc⟩ := root
  have h0 : sizeListT (insertAllT ts []) = sizeListT ts := by
    rw [sizeListT_insertAllT]
    simp [sizeListT]
  have hfired : (drainTimers (sizeListT ts) (insertAllT ts []) start 0).2 =
      sizeListT ts := by
    rw [drainTimers_spec _ _ _ _ (by omega), h0]
    omega
  cases oc with
  | ok v => exact ⟨_, rfl, hfired, rfl, rfl⟩
  | error e => exact ⟨_, rfl, hfired, rfl, rfl⟩

/-- Claim C1, counterexample to the claim as stated: for a root computation
that fails (error 7), the claim says run propagates the failure out of the
run call; in the code run returns normally — `unhandled_exception`
(main.cpp:163-165) captured the exception into the root promise, where it
still sits when run is over, with nothing delivered through run's own return
channel.  The failure is re-raised only by the caller's separate
`ReturnResult` call (main.cpp:583), not by run. -/
theorem loopRun_counterexample :
    LoopRunModel 0 ({ initialTimers := [], outcome := .error ⟨7⟩ } :
        RootCo Nat) =
      .ok { promise := { mException := some ⟨7⟩, mResult := ⟨none⟩ },
            finalClock := 0, fired := 0 } ∧
    LoopRunModel 0 ({ initialTimers := [], outcome := .error ⟨7⟩ } :
        RootCo Nat) ≠ .error ⟨7⟩ ∧
    ReturnResult ({ mException := some ⟨7⟩, mResult := ⟨none⟩ } :
        RootPromise Nat) = .error ⟨7⟩ := by
  have h0 : LoopRunModel 0 ({ initialTimers := [], outcome := .error ⟨7⟩ } :
      RootCo Nat) =
    .ok { promise := { mException := some ⟨7⟩, mResult := ⟨none⟩ },
          finalClock := 0, fired := 0 } := by
    simp [LoopRunModel, sizeListT, insertAllT, drainTimers]
  refine ⟨h0, ?_, rfl⟩
  intro h
  rw [h0] at h
  exact Except.noConfusion h
